import Mathlib

/-!
Verification of the scene-parallel video-encoding driver.

The definitions below are a shallow embedding of the program's data model and
algorithms, translated from the Rust sources:
`src/config.rs` (the `QualityRange` bisection state and the `Config` enums),
`src/encoder.rs` (the per-scene quality search loop, the worker pool, and the
result aggregator), `src/scenes.rs` (the scene catalog), `src/ffmpeg.rs`
(the metadata cache), and `src/metrics.rs` (the per-clip metrics cache).

Machine 64-bit signed integers are modelled as `Int` (no arithmetic here comes
near overflow: quality endpoints are at most 30000 in magnitude), Rust `usize`
values as `Nat`, and `f64` quality/metric values as `ℚ`.  All `f64` values
produced by `QualityRange` are integers, quarters or hundreds well inside the
exactly-representable range, so rational arithmetic coincides with the `f64`
arithmetic performed by the program, and metric scores are treated abstractly
as rationals (only their ordering matters to the control flow).
-/

/-- The bisection state over an integer quality grid, from `QualityRange` in
`src/config.rs` (lines 8-85).  Field names follow the Rust struct. -/
structure QualityRange where
  minimum : Int
  maximum : Int
  divisor : Int
  bitrate : Bool
  deriving Repr, DecidableEq

namespace QualityRange

/-- Constructor, from `QualityRange::new` (`src/config.rs` lines 17-34).  Rust
`i64` division truncates toward zero, which is `Int.tdiv`. -/
def new (minimum maximum divisor : Int) (bitrate : Bool) : QualityRange :=
  if bitrate then
    { minimum := minimum.tdiv divisor
      maximum := maximum.tdiv divisor
      divisor := divisor
      bitrate := bitrate }
  else
    { minimum := minimum * divisor
      maximum := maximum * divisor
      divisor := divisor
      bitrate := bitrate }

/-- `QualityRange::midpoint` (`src/config.rs` lines 36-39): `(minimum + maximum) / 2`
with Rust's truncating `i64` division. -/
def midpoint (q : QualityRange) : Int :=
  (q.minimum + q.maximum).tdiv 2

/-- `QualityRange::current` (`src/config.rs` lines 41-51): `None` once the
interval is exhausted, otherwise the midpoint expressed in user units. -/
def current (q : QualityRange) : Option ℚ :=
  if q.minimum > q.maximum then
    none
  else if q.bitrate then
    some ((q.midpoint : ℚ) * (q.divisor : ℚ))
  else
    some ((q.midpoint : ℚ) / (q.divisor : ℚ))

/-- `QualityRange::lower` (`src/config.rs` lines 53-55). -/
def lower (q : QualityRange) : QualityRange :=
  { q with maximum := q.midpoint - 1 }

/-- `QualityRange::higher` (`src/config.rs` lines 57-59). -/
def higher (q : QualityRange) : QualityRange :=
  { q with minimum := q.midpoint + 1 }

/-- `QualityRange::minimum` the accessor (`src/config.rs` lines 66-74):
the stored lower endpoint converted to user units. -/
def userMinimum (q : QualityRange) : ℚ :=
  if q.bitrate then (q.minimum : ℚ) * (q.divisor : ℚ)
  else (q.minimum : ℚ) / (q.divisor : ℚ)

/-- `QualityRange::maximum` the accessor (`src/config.rs` lines 76-84):
the stored upper endpoint converted to user units. -/
def userMaximum (q : QualityRange) : ℚ :=
  if q.bitrate then (q.maximum : ℚ) * (q.divisor : ℚ)
  else (q.maximum : ℚ) / (q.divisor : ℚ)

/-- Integer width of the interval: `max 0 (maximum - minimum + 1)`. -/
def width (q : QualityRange) : Nat :=
  (q.maximum - q.minimum + 1).toNat

end QualityRange

/-- The truncating remainder of an integer by two lies in `[-1, 1]`. -/
theorem tmod_two_bounds (a : Int) : -1 ≤ a.tmod 2 ∧ a.tmod 2 ≤ 1 := by
  cases a with
  | ofNat m =>
      have h : (Int.ofNat m).tmod 2 = ((m % 2 : Nat) : Int) := rfl
      rw [h]
      omega
  | negSucc m =>
      have h : (Int.negSucc m).tmod 2 = -(((m + 1) % 2 : Nat) : Int) := rfl
      rw [h]
      omega

/-- Truncating halving differs from the exact half by at most one half:
`a - 1 ≤ 2 * (a.tdiv 2) ≤ a + 1`. -/
theorem two_mul_tdiv_two_bounds (a : Int) :
    a - 1 ≤ 2 * (a.tdiv 2) ∧ 2 * (a.tdiv 2) ≤ a + 1 := by
  have h := Int.tdiv_add_tmod a 2
  have hb := tmod_two_bounds a
  omega

namespace QualityRange

/-- The midpoint stays inside a nonempty interval. -/
theorem midpoint_bounds {q : QualityRange} (h : q.minimum ≤ q.maximum) :
    q.minimum ≤ q.midpoint ∧ q.midpoint ≤ q.maximum := by
  have hb := two_mul_tdiv_two_bounds (q.minimum + q.maximum)
  unfold midpoint
  omega

/-- `current` succeeds exactly on nonempty intervals. -/
theorem current_isSome_iff (q : QualityRange) :
    (q.current).isSome ↔ q.minimum ≤ q.maximum := by
  unfold current
  split
  · simp only [Option.isSome_none, Bool.false_eq_true, false_iff]
    omega
  · constructor
    · intro _
      omega
    · intro _
      split <;> simp

/-- A `lower` step after a successful `current` strictly shrinks the width,
and in fact at least halves it. -/
theorem width_lower {q : QualityRange} (h : (q.current).isSome) :
    q.lower.width < q.width ∧ 2 * q.lower.width ≤ q.width := by
  rw [current_isSome_iff] at h
  have hm := midpoint_bounds h
  have hb := two_mul_tdiv_two_bounds (q.minimum + q.maximum)
  unfold width lower
  simp only
  unfold midpoint at hm hb ⊢
  omega

/-- A `higher` step after a successful `current` strictly shrinks the width,
and in fact at least halves it. -/
theorem width_higher {q : QualityRange} (h : (q.current).isSome) :
    q.higher.width < q.width ∧ 2 * q.higher.width ≤ q.width := by
  rw [current_isSome_iff] at h
  have hm := midpoint_bounds h
  have hb := two_mul_tdiv_two_bounds (q.minimum + q.maximum)
  unfold width higher
  simp only
  unfold midpoint at hm hb ⊢
  omega

/-- One bisection step: `lower` when the flag is true, `higher` otherwise. -/
def step (b : Bool) (q : QualityRange) : QualityRange :=
  if b then q.lower else q.higher

/-- A sequence of bisection steps is guarded when each step is preceded by a
`current` call that returned a value (the shape of the loop in
`Encoder::encode_scene`). -/
def guarded (q : QualityRange) : List Bool → Bool
  | [] => true
  | b :: bs => (q.current).isSome && guarded (step b q) bs

theorem width_step {q : QualityRange} (b : Bool) (h : (q.current).isSome) :
    q.width ≥ 1 ∧ (step b q).width < q.width ∧ 2 * (step b q).width ≤ q.width := by
  have hl := width_lower h
  have hh := width_higher h
  have h1 : q.width ≥ 1 := by
    rw [current_isSome_iff] at h
    unfold width
    omega
  cases b <;> simp [step] <;> omega

/-- A guarded chain of `k + 1` steps forces `2 ^ k ≤` the initial width. -/
theorem guarded_pow_le {q : QualityRange} {b : Bool} {bs : List Bool}
    (h : guarded q (b :: bs)) : 2 ^ bs.length ≤ q.width := by
  induction bs generalizing q b with
  | nil =>
      simp only [guarded, Bool.and_eq_true] at h
      have := width_step b h.1
      simpa using this.1
  | cons b' bs' ih =>
      simp only [guarded, Bool.and_eq_true] at h
      have hstep := width_step b h.1
      have hrec : guarded (step b q) (b' :: bs') := by
        simpa [guarded] using h.2
      have := ih hrec
      have hlen : (b' :: bs').length = bs'.length + 1 := rfl
      calc 2 ^ (b' :: bs').length = 2 * 2 ^ bs'.length := by
              rw [hlen, pow_succ, Nat.mul_comm]
        _ ≤ 2 * (step b q).width := by omega
        _ ≤ q.width := hstep.2.2

end QualityRange

/-- C3: for every `QualityRange`, a `lower` or `higher` call performed after a
`current` call that returned a value strictly shrinks the integer width
`W = max 0 (maximum - minimum + 1)`; consequently any guarded run of the
bisection from initial width `N` performs at most `Nat.log2 N + 1`
current/lower-or-higher iterations before `current` returns `none`. -/
theorem quality_range_width_strictly_shrinks (q : QualityRange) (bs : List Bool)
    (h : (q.current).isSome) (hg : QualityRange.guarded q bs = true) :
    (q.lower.width < q.width ∧ q.higher.width < q.width) ∧
      bs.length ≤ Nat.log2 q.width + 1 := by
  refine ⟨⟨(QualityRange.width_lower h).1, (QualityRange.width_higher h).1⟩, ?_⟩
  cases bs with
  | nil => simp
  | cons b bs' =>
      have hpow := QualityRange.guarded_pow_le hg
      have hw : q.width ≠ 0 := by
        have := QualityRange.width_step b h
        omega
      have := (Nat.le_log2 hw).mpr hpow
      simpa using Nat.succ_le_succ this

/-- Witness for C3 at the x264 QP range `[1, 81]` with the guarded chain
`[lower, higher, lower]`. -/
theorem quality_range_width_strictly_shrinks_witness :
    ((QualityRange.new 1 81 1 false).current).isSome = true ∧
      QualityRange.guarded (QualityRange.new 1 81 1 false) [true, false, true] = true ∧
      (((QualityRange.new 1 81 1 false).lower.width <
            (QualityRange.new 1 81 1 false).width ∧
          (QualityRange.new 1 81 1 false).higher.width <
            (QualityRange.new 1 81 1 false).width) ∧
        ([true, false, true] : List Bool).length ≤
          Nat.log2 (QualityRange.new 1 81 1 false).width + 1) :=
  ⟨by decide, by decide,
    quality_range_width_strictly_shrinks (QualityRange.new 1 81 1 false)
      [true, false, true] (by decide) (by decide)⟩

/-! ## The per-scene quality search (`Encoder::encode_scene`, `src/encoder.rs`) -/

/-- `QualityRule` from `src/config.rs` lines 87-92. -/
inductive QualityRule where
  | Maximum
  | Minimum
  | Target
  deriving Repr, DecidableEq

/-- `Mode` from `src/config.rs` lines 105-110. -/
inductive Mode where
  | QP
  | CRF
  | Bitrate
  deriving Repr, DecidableEq

/-- The `f64::MIN` constant used to seed `best_score`
(`src/encoder.rs` line 373): `-(2 - 2⁻⁵²) · 2¹⁰²³` as an exact rational. -/
def f64Min : ℚ := -(2 ^ 1024 - 2 ^ 971)

/-- The mutable state of the search loop in `Encoder::encode_scene`:
the bisection range and the running `best_quality` / `best_score` pair. -/
structure SearchState where
  range : QualityRange
  bestQuality : ℚ
  bestScore : ℚ
  deriving Repr, DecidableEq

/-- Seeding of `best_quality` from `src/encoder.rs` lines 356-371:
match on the mode, then compare the rule against `Maximum`. -/
def seedBestQuality (mode : Mode) (rule : QualityRule) (qr : QualityRange) : ℚ :=
  match mode with
  | .Bitrate =>
      if rule = .Maximum then qr.userMinimum else qr.userMaximum
  | .CRF | .QP =>
      if rule = .Maximum then qr.userMaximum else qr.userMinimum

/-- One iteration of the rule-by-mode dispatch from `src/encoder.rs`
lines 470-542: given the probed quality and the reduced metric value, update
`best_quality` / `best_score` and contract the range. -/
def searchStep (rule : QualityRule) (mode : Mode) (target : ℚ)
    (st : SearchState) (currentQuality metricValue : ℚ) : SearchState :=
  match rule with
  | .Maximum =>
      match mode with
      | .Bitrate =>
          if metricValue ≤ target then
            let st :=
              if currentQuality > st.bestQuality then
                { st with bestQuality := currentQuality, bestScore := metricValue }
              else st
            { st with range := st.range.higher }
          else
            { st with range := st.range.lower }
      | .CRF | .QP =>
          if metricValue ≤ target then
            let st :=
              if currentQuality < st.bestQuality then
                { st with bestQuality := currentQuality, bestScore := metricValue }
              else st
            { st with range := st.range.lower }
          else
            { st with range := st.range.higher }
  | .Minimum =>
      match mode with
      | .Bitrate =>
          if metricValue ≥ target then
            let st :=
              if currentQuality < st.bestQuality then
                { st with bestQuality := currentQuality, bestScore := metricValue }
              else st
            { st with range := st.range.lower }
          else
            { st with range := st.range.higher }
      | .CRF | .QP =>
          if metricValue ≥ target then
            let st :=
              if currentQuality > st.bestQuality then
                { st with bestQuality := currentQuality, bestScore := metricValue }
              else st
            { st with range := st.range.higher }
          else
            { st with range := st.range.lower }
  | .Target =>
      let currentDelta := |target - st.bestScore|
      let newDelta := |target - metricValue|
      let st :=
        if newDelta < currentDelta then
          { st with bestQuality := currentQuality, bestScore := metricValue }
        else st
      if (mode = .Bitrate ∧ metricValue ≤ target) ∨
          (mode ≠ .Bitrate ∧ metricValue ≥ target) then
        { st with range := st.range.higher }
      else
        { st with range := st.range.lower }

/-- The `while let Some(current_quality) = quality_range.current()` loop of
`src/encoder.rs` lines 375-543, with an explicit fuel argument so that the
definition is structural.  `metric` abstracts the encode-then-measure probe of
one iteration.  Returns the final `best_quality` together with the list of
probed qualities.  Fuel `width + 1` is always sufficient
(`searchLoopAux_fuel_sufficient`), so the fueled function computes exactly the
loop's result. -/
def searchLoopAux (rule : QualityRule) (mode : Mode) (target : ℚ)
    (metric : ℚ → ℚ) : Nat → SearchState → ℚ × List ℚ
  | 0, st => (st.bestQuality, [])
  | fuel + 1, st =>
      match st.range.current with
      | none => (st.bestQuality, [])
      | some q =>
          let st' := searchStep rule mode target st q (metric q)
          let r := searchLoopAux rule mode target metric fuel st'
          (r.1, q :: r.2)

/-- Every branch of `searchStep` contracts the range with `lower` or `higher`. -/
theorem searchStep_range (rule : QualityRule) (mode : Mode) (target : ℚ)
    (st : SearchState) (q v : ℚ) :
    (searchStep rule mode target st q v).range = st.range.lower ∨
      (searchStep rule mode target st q v).range = st.range.higher := by
  cases rule <;> cases mode <;>
    simp only [searchStep] <;>
    split <;> (try split) <;> simp

/-- The width of the range strictly decreases across any guarded `searchStep`. -/
theorem searchStep_width {rule : QualityRule} {mode : Mode} {target : ℚ}
    {st : SearchState} {q v : ℚ} (h : (st.range.current).isSome) :
    (searchStep rule mode target st q v).range.width < st.range.width := by
  rcases searchStep_range rule mode target st q v with hr | hr <;> rw [hr]
  · exact (QualityRange.width_lower h).1
  · exact (QualityRange.width_higher h).1

/-- Any fuel larger than the current width computes the same result: the loop
genuinely terminates within `width + 1` iterations. -/
theorem searchLoopAux_fuel_sufficient (rule : QualityRule) (mode : Mode)
    (target : ℚ) (metric : ℚ → ℚ) :
    ∀ fuel fuel' st, st.range.width < fuel → st.range.width < fuel' →
      searchLoopAux rule mode target metric fuel st =
        searchLoopAux rule mode target metric fuel' st := by
  intro fuel
  induction fuel using Nat.strong_induction_on with
  | _ fuel ih =>
      intro fuel' st hf hf'
      match fuel, fuel', hf, hf' with
      | f + 1, f' + 1, hf, hf' =>
          cases hc : st.range.current with
          | none => simp only [searchLoopAux, hc]
          | some q =>
              have hsome : (st.range.current).isSome := by rw [hc]; rfl
              have hw := @searchStep_width rule mode target st q (metric q) hsome
              have heq := ih f (by omega) f'
                (searchStep rule mode target st q (metric q)) (by omega) (by omega)
              simp only [searchLoopAux, hc, heq]

/-- The complete metric-guided search of `Encoder::encode_scene`
(`src/encoder.rs` lines 354-545): seed `best_quality` by rule and mode, seed
`best_score` with `f64::MIN`, then bisect until `current` returns `none`. -/
def encodeSceneSearch (rule : QualityRule) (mode : Mode) (target : ℚ)
    (metric : ℚ → ℚ) (qr : QualityRange) : ℚ × List ℚ :=
  searchLoopAux rule mode target metric (qr.width + 1)
    { range := qr, bestQuality := seedBestQuality mode rule qr, bestScore := f64Min }

/-! ## C2: the loop follows the documented seeding and rule-by-mode table -/

/-- Adoption of the current probe as the new best, as written in the spec's
table (§4.5.2): "adopt" sets `(best_quality, best_score) := (q, v)`. -/
def specAdopt (st : SearchState) (q v : ℚ) : SearchState :=
  { st with bestQuality := q, bestScore := v }

/-- The seeding rule exactly as the spec words it (§4.5.2): "For bitrate mode
with rule=Maximum: best = range.minimum; else best = range.maximum.  For
CRF/QP modes with rule=Maximum: best = range.maximum; else best =
range.minimum." -/
def specSeedBestQuality (mode : Mode) (rule : QualityRule) (qr : QualityRange) : ℚ :=
  match rule, mode with
  | .Maximum, .Bitrate => qr.userMinimum
  | _, .Bitrate => qr.userMaximum
  | .Maximum, _ => qr.userMaximum
  | _, _ => qr.userMinimum

/-- The rule-by-mode table of spec §4.5.2, row by row:
`| Maximum | Bitrate | v ≤ target | if q>best: adopt; then higher() | lower() |`
`| Maximum | CRF/QP  | v ≤ target | if q<best: adopt; then lower()  | higher() |`
`| Minimum | Bitrate | v ≥ target | if q<best: adopt; then lower()  | higher() |`
`| Minimum | CRF/QP  | v ≥ target | if q>best: adopt; then higher() | lower() |`
`| Target  | any     | adopt iff \|target−v\| < \|target−best_score\|; then if
(mode≠Bitrate ∧ v≥target) or (mode=Bitrate ∧ v≤target): higher() else lower()`. -/
def specTableStep (rule : QualityRule) (mode : Mode) (target : ℚ)
    (st : SearchState) (q v : ℚ) : SearchState :=
  match rule, mode with
  | .Maximum, .Bitrate =>
      if v ≤ target then
        { (if st.bestQuality < q then specAdopt st q v else st) with
            range := st.range.higher }
      else
        { st with range := st.range.lower }
  | .Maximum, _ =>
      if v ≤ target then
        { (if q < st.bestQuality then specAdopt st q v else st) with
            range := st.range.lower }
      else
        { st with range := st.range.higher }
  | .Minimum, .Bitrate =>
      if target ≤ v then
        { (if q < st.bestQuality then specAdopt st q v else st) with
            range := st.range.lower }
      else
        { st with range := st.range.higher }
  | .Minimum, _ =>
      if target ≤ v then
        { (if st.bestQuality < q then specAdopt st q v else st) with
            range := st.range.higher }
      else
        { st with range := st.range.lower }
  | .Target, _ =>
      let st' :=
        if |target - v| < |target - st.bestScore| then specAdopt st q v else st
      if (mode = .Bitrate ∧ v ≤ target) ∨ (mode ≠ .Bitrate ∧ target ≤ v) then
        { st' with range := st'.range.higher }
      else
        { st' with range := st'.range.lower }

/-- C2: in metric-guided mode, `encode_scene` seeds `best_quality` exactly as
specified (CRF/QP: `range.maximum` iff rule is Maximum; Bitrate:
`range.minimum` iff rule is Maximum), and every loop iteration updates
`(best_quality, best_score)` and contracts the range exactly according to the
spec's rule-by-mode table — the source's dispatch is pointwise equal to the
table, for every rule, mode, state, probed quality, and metric value. -/
theorem encode_scene_follows_spec_table (rule : QualityRule) (mode : Mode)
    (target : ℚ) (st : SearchState) (q v : ℚ) (qr : QualityRange) :
    seedBestQuality mode rule qr = specSeedBestQuality mode rule qr ∧
      searchStep rule mode target st q v = specTableStep rule mode target st q v := by
  constructor
  · cases rule <;> cases mode <;> rfl
  · cases rule <;> cases mode <;>
      simp only [searchStep, specTableStep, specAdopt, ge_iff_le, gt_iff_lt] <;>
      split <;> (try split) <;> rfl

/-! ## C1: what the bisection actually guarantees about the chosen quality -/

namespace QualityRange

theorem divisor_lower (q : QualityRange) : q.lower.divisor = q.divisor := rfl

theorem divisor_higher (q : QualityRange) : q.higher.divisor = q.divisor := rfl

theorem userMaximum_higher (q : QualityRange) : q.higher.userMaximum = q.userMaximum := rfl

theorem userMinimum_lower (q : QualityRange) : q.lower.userMinimum = q.userMinimum := rfl

/-- A successful `current` value never exceeds the user-unit maximum. -/
theorem current_le_userMaximum {q : QualityRange} (hd : 0 < q.divisor) {x : ℚ}
    (h : q.current = some x) : x ≤ q.userMaximum := by
  unfold current at h
  split at h
  · exact absurd h (by simp)
  · have hle : q.minimum ≤ q.maximum := by omega
    have hm := midpoint_bounds hle
    have hdq : (0 : ℚ) < (q.divisor : ℚ) := by exact_mod_cast hd
    have hmq : (q.midpoint : ℚ) ≤ (q.maximum : ℚ) := by exact_mod_cast hm.2
    unfold userMaximum
    rcases hbit : q.bitrate with _ | _ <;> simp only [hbit] at h ⊢ <;>
      simp only [if_true, if_false, Bool.false_eq_true] at h ⊢ <;>
      cases h <;> gcongr

/-- A successful `current` value is at least the user-unit minimum. -/
theorem userMinimum_le_current {q : QualityRange} (hd : 0 < q.divisor) {x : ℚ}
    (h : q.current = some x) : q.userMinimum ≤ x := by
  unfold current at h
  split at h
  · exact absurd h (by simp)
  · have hle : q.minimum ≤ q.maximum := by omega
    have hm := midpoint_bounds hle
    have hdq : (0 : ℚ) < (q.divisor : ℚ) := by exact_mod_cast hd
    have hmq : (q.minimum : ℚ) ≤ (q.midpoint : ℚ) := by exact_mod_cast hm.1
    unfold userMinimum
    rcases hbit : q.bitrate with _ | _ <;> simp only [hbit] at h ⊢ <;>
      simp only [if_true, if_false, Bool.false_eq_true] at h ⊢ <;>
      cases h <;> gcongr

/-- `lower` never raises the user-unit maximum. -/
theorem userMaximum_lower_le {q : QualityRange} (hd : 0 < q.divisor)
    (h : (q.current).isSome) : q.lower.userMaximum ≤ q.userMaximum := by
  rw [current_isSome_iff] at h
  have hm := midpoint_bounds h
  have hdq : (0 : ℚ) < (q.divisor : ℚ) := by exact_mod_cast hd
  have hmq : ((q.midpoint - 1 : Int) : ℚ) ≤ (q.maximum : ℚ) := by
    exact_mod_cast (by omega : q.midpoint - 1 ≤ q.maximum)
  unfold userMaximum lower
  simp only
  split <;> gcongr

/-- `higher` never drops the user-unit minimum. -/
theorem userMinimum_higher_ge {q : QualityRange} (hd : 0 < q.divisor)
    (h : (q.current).isSome) : q.userMinimum ≤ q.higher.userMinimum := by
  rw [current_isSome_iff] at h
  have hm := midpoint_bounds h
  have hdq : (0 : ℚ) < (q.divisor : ℚ) := by exact_mod_cast hd
  have hmq : (q.minimum : ℚ) ≤ ((q.midpoint + 1 : Int) : ℚ) := by
    exact_mod_cast (by omega : q.minimum ≤ q.midpoint + 1)
  unfold userMinimum higher
  simp only
  split <;> gcongr

end QualityRange

/-- The downward search shape shared by the (Maximum, CRF/QP) and
(Minimum, Bitrate) rows of the dispatch: on a satisfied predicate adopt the
probe when it is below the current best and contract downward, otherwise
contract upward. -/
def descStep (p : ℚ → Bool) (st : SearchState) (q v : ℚ) : SearchState :=
  if p v then
    let st' :=
      if q < st.bestQuality then { st with bestQuality := q, bestScore := v }
      else st
    { st' with range := st'.range.lower }
  else
    { st with range := st.range.higher }

/-- The upward search shape shared by the (Minimum, CRF/QP) and
(Maximum, Bitrate) rows: adopt the probe when it is above the current best and
contract upward, otherwise contract downward. -/
def ascStep (p : ℚ → Bool) (st : SearchState) (q v : ℚ) : SearchState :=
  if p v then
    let st' :=
      if st.bestQuality < q then { st with bestQuality := q, bestScore := v }
      else st
    { st' with range := st'.range.higher }
  else
    { st with range := st.range.lower }

/-- The bisection loop specialised to a downward search shape. -/
def descLoop (p : ℚ → Bool) (metric : ℚ → ℚ) : Nat → SearchState → ℚ × List ℚ
  | 0, st => (st.bestQuality, [])
  | fuel + 1, st =>
      match st.range.current with
      | none => (st.bestQuality, [])
      | some q =>
          let r := descLoop p metric fuel (descStep p st q (metric q))
          (r.1, q :: r.2)

/-- The bisection loop specialised to an upward search shape. -/
def ascLoop (p : ℚ → Bool) (metric : ℚ → ℚ) : Nat → SearchState → ℚ × List ℚ
  | 0, st => (st.bestQuality, [])
  | fuel + 1, st =>
      match st.range.current with
      | none => (st.bestQuality, [])
      | some q =>
          let r := ascLoop p metric fuel (ascStep p st q (metric q))
          (r.1, q :: r.2)

theorem searchStep_eq_descStep_max (mode : Mode) (hm : mode = .CRF ∨ mode = .QP)
    (target : ℚ) (st : SearchState) (q v : ℚ) :
    searchStep .Maximum mode target st q v =
      descStep (fun w => decide (w ≤ target)) st q v := by
  rcases hm with hm | hm <;> subst hm <;>
    simp only [searchStep, descStep, decide_eq_true_eq]

theorem searchStep_eq_descStep_minBitrate (target : ℚ) (st : SearchState) (q v : ℚ) :
    searchStep .Minimum .Bitrate target st q v =
      descStep (fun w => decide (target ≤ w)) st q v := by
  simp only [searchStep, descStep, decide_eq_true_eq, ge_iff_le]

theorem searchStep_eq_ascStep_min (mode : Mode) (hm : mode = .CRF ∨ mode = .QP)
    (target : ℚ) (st : SearchState) (q v : ℚ) :
    searchStep .Minimum mode target st q v =
      ascStep (fun w => decide (target ≤ w)) st q v := by
  rcases hm with hm | hm <;> subst hm <;>
    simp only [searchStep, ascStep, decide_eq_true_eq, ge_iff_le, gt_iff_lt]

theorem searchStep_eq_ascStep_maxBitrate (target : ℚ) (st : SearchState) (q v : ℚ) :
    searchStep .Maximum .Bitrate target st q v =
      ascStep (fun w => decide (w ≤ target)) st q v := by
  simp only [searchStep, ascStep, decide_eq_true_eq, gt_iff_lt]

theorem searchLoopAux_eq_descLoop {rule : QualityRule} {mode : Mode} {target : ℚ}
    {p : ℚ → Bool} (metric : ℚ → ℚ)
    (hstep : ∀ st q v, searchStep rule mode target st q v = descStep p st q v) :
    ∀ fuel st,
      searchLoopAux rule mode target metric fuel st = descLoop p metric fuel st := by
  intro fuel
  induction fuel with
  | zero => intro st; rfl
  | succ f ih =>
      intro st
      cases hc : st.range.current with
      | none => simp only [searchLoopAux, descLoop, hc]
      | some q => simp only [searchLoopAux, descLoop, hc, hstep, ih]

theorem searchLoopAux_eq_ascLoop {rule : QualityRule} {mode : Mode} {target : ℚ}
    {p : ℚ → Bool} (metric : ℚ → ℚ)
    (hstep : ∀ st q v, searchStep rule mode target st q v = ascStep p st q v) :
    ∀ fuel st,
      searchLoopAux rule mode target metric fuel st = ascLoop p metric fuel st := by
  intro fuel
  induction fuel with
  | zero => intro st; rfl
  | succ f ih =>
      intro st
      cases hc : st.range.current with
      | none => simp only [searchLoopAux, ascLoop, hc]
      | some q => simp only [searchLoopAux, ascLoop, hc, hstep, ih]

/-- Invariants of the downward search: the returned best only decreases, it is
either the seed or a satisfying probe, it is a lower bound on every satisfying
probe, and every probe stays below the user-unit maximum of the range. -/
theorem descLoop_invariant (p : ℚ → Bool) (metric : ℚ → ℚ) :
    ∀ (fuel : Nat) (st : SearchState), 0 < st.range.divisor →
      (descLoop p metric fuel st).1 ≤ st.bestQuality ∧
        ((descLoop p metric fuel st).1 = st.bestQuality ∨
          ((descLoop p metric fuel st).1 ∈ (descLoop p metric fuel st).2 ∧
            p (metric (descLoop p metric fuel st).1) = true)) ∧
        (∀ x ∈ (descLoop p metric fuel st).2, p (metric x) = true →
          (descLoop p metric fuel st).1 ≤ x) ∧
        (∀ x ∈ (descLoop p metric fuel st).2, x ≤ st.range.userMaximum) := by
  intro fuel
  induction fuel with
  | zero =>
      intro st hd
      refine ⟨le_refl _, Or.inl rfl, ?_, ?_⟩ <;> intro x hx <;>
        simp [descLoop] at hx
  | succ f ih =>
      intro st hd
      cases hc : st.range.current with
      | none =>
          simp [descLoop, hc]
      | some q =>
          have hsome : (st.range.current).isSome := by rw [hc]; rfl
          have hqmax : q ≤ st.range.userMaximum :=
            QualityRange.current_le_userMaximum hd hc
          simp only [descLoop, hc]
          rcases hbp : p (metric q) with _ | _
          · -- predicate failed: contract upward, best untouched
            have hbest : (descStep p st q (metric q)).bestQuality = st.bestQuality := by
              simp [descStep, hbp]
            have hrange : (descStep p st q (metric q)).range = st.range.higher := by
              simp [descStep, hbp]
            have hdiv' : 0 < (descStep p st q (metric q)).range.divisor := by
              rw [hrange]; exact hd
            obtain ⟨ih1, ih2, ih3, ih4⟩ := ih (descStep p st q (metric q)) hdiv'
            refine ⟨by rw [hbest] at ih1; exact ih1, ?_, ?_, ?_⟩
            · rcases ih2 with h | h
              · exact Or.inl (by rw [← hbest]; exact h)
              · exact Or.inr ⟨List.mem_cons_of_mem _ h.1, h.2⟩
            · intro x hx hsat
              rcases List.mem_cons.mp hx with hx | hx
              · subst hx; rw [hbp] at hsat; cases hsat
              · exact ih3 x hx hsat
            · intro x hx
              rcases List.mem_cons.mp hx with hx | hx
              · subst hx; exact hqmax
              · calc x ≤ (descStep p st q (metric q)).range.userMaximum := ih4 x hx
                  _ = st.range.userMaximum := by
                      rw [hrange, QualityRange.userMaximum_higher]
          · -- predicate held: adopt when strictly below the best, contract downward
            have hrange : (descStep p st q (metric q)).range = st.range.lower := by
              by_cases hlt : q < st.bestQuality <;> simp [descStep, hbp, hlt]
            have hdiv' : 0 < (descStep p st q (metric q)).range.divisor := by
              rw [hrange]; exact hd
            obtain ⟨ih1, ih2, ih3, ih4⟩ := ih (descStep p st q (metric q)) hdiv'
            have hum : (descStep p st q (metric q)).range.userMaximum ≤
                st.range.userMaximum := by
              rw [hrange]; exact QualityRange.userMaximum_lower_le hd hsome
            by_cases hlt : q < st.bestQuality
            · have hbest : (descStep p st q (metric q)).bestQuality = q := by
                simp [descStep, hbp, hlt]
              rw [hbest] at ih1 ih2
              refine ⟨le_trans ih1 (le_of_lt hlt), ?_, ?_, ?_⟩
              · rcases ih2 with h | h
                · exact Or.inr ⟨by rw [h]; exact List.mem_cons_self _ _, by rw [h]; exact hbp⟩
                · exact Or.inr ⟨List.mem_cons_of_mem _ h.1, h.2⟩
              · intro x hx hsat
                rcases List.mem_cons.mp hx with hx | hx
                · subst hx; exact ih1
                · exact ih3 x hx hsat
              · intro x hx
                rcases List.mem_cons.mp hx with hx | hx
                · subst hx; exact hqmax
                · exact le_trans (ih4 x hx) hum
            · have hbest : (descStep p st q (metric q)).bestQuality = st.bestQuality := by
                simp [descStep, hbp, hlt]
              rw [hbest] at ih1 ih2
              refine ⟨ih1, ?_, ?_, ?_⟩
              · rcases ih2 with h | h
                · exact Or.inl h
                · exact Or.inr ⟨List.mem_cons_of_mem _ h.1, h.2⟩
              · intro x hx hsat
                rcases List.mem_cons.mp hx with hx | hx
                · subst hx; exact le_trans ih1 (not_lt.mp hlt)
                · exact ih3 x hx hsat
              · intro x hx
                rcases List.mem_cons.mp hx with hx | hx
                · subst hx; exact hqmax
                · exact le_trans (ih4 x hx) hum

/-- Invariants of the upward search, mirrored from `descLoop_invariant`. -/
theorem ascLoop_invariant (p : ℚ → Bool) (metric : ℚ → ℚ) :
    ∀ (fuel : Nat) (st : SearchState), 0 < st.range.divisor →
      st.bestQuality ≤ (ascLoop p metric fuel st).1 ∧
        ((ascLoop p metric fuel st).1 = st.bestQuality ∨
          ((ascLoop p metric fuel st).1 ∈ (ascLoop p metric fuel st).2 ∧
            p (metric (ascLoop p metric fuel st).1) = true)) ∧
        (∀ x ∈ (ascLoop p metric fuel st).2, p (metric x) = true →
          x ≤ (ascLoop p metric fuel st).1) ∧
        (∀ x ∈ (ascLoop p metric fuel st).2, st.range.userMinimum ≤ x) := by
  intro fuel
  induction fuel with
  | zero =>
      intro st hd
      refine ⟨le_refl _, Or.inl rfl, ?_, ?_⟩ <;> intro x hx <;>
        simp [ascLoop] at hx
  | succ f ih =>
      intro st hd
      cases hc : st.range.current with
      | none =>
          simp [ascLoop, hc]
      | some q =>
          have hsome : (st.range.current).isSome := by rw [hc]; rfl
          have hqmin : st.range.userMinimum ≤ q :=
            QualityRange.userMinimum_le_current hd hc
          simp only [ascLoop, hc]
          rcases hbp : p (metric q) with _ | _
          · -- predicate failed: contract downward, best untouched
            have hbest : (ascStep p st q (metric q)).bestQuality = st.bestQuality := by
              simp [ascStep, hbp]
            have hrange : (ascStep p st q (metric q)).range = st.range.lower := by
              simp [ascStep, hbp]
            have hdiv' : 0 < (ascStep p st q (metric q)).range.divisor := by
              rw [hrange]; exact hd
            obtain ⟨ih1, ih2, ih3, ih4⟩ := ih (ascStep p st q (metric q)) hdiv'
            refine ⟨by rw [hbest] at ih1; exact ih1, ?_, ?_, ?_⟩
            · rcases ih2 with h | h
              · exact Or.inl (by rw [← hbest]; exact h)
              · exact Or.inr ⟨List.mem_cons_of_mem _ h.1, h.2⟩
            · intro x hx hsat
              rcases List.mem_cons.mp hx with hx | hx
              · subst hx; rw [hbp] at hsat; cases hsat
              · exact ih3 x hx hsat
            · intro x hx
              rcases List.mem_cons.mp hx with hx | hx
              · subst hx; exact hqmin
              · calc st.range.userMinimum
                    = (ascStep p st q (metric q)).range.userMinimum := by
                      rw [hrange, QualityRange.userMinimum_lower]
                  _ ≤ x := ih4 x hx
          · -- predicate held: adopt when strictly above the best, contract upward
            have hrange : (ascStep p st q (metric q)).range = st.range.higher := by
              by_cases hlt : st.bestQuality < q <;> simp [ascStep, hbp, hlt]
            have hdiv' : 0 < (ascStep p st q (metric q)).range.divisor := by
              rw [hrange]; exact hd
            obtain ⟨ih1, ih2, ih3, ih4⟩ := ih (ascStep p st q (metric q)) hdiv'
            have hum : st.range.userMinimum ≤
                (ascStep p st q (metric q)).range.userMinimum := by
              rw [hrange]; exact QualityRange.userMinimum_higher_ge hd hsome
            by_cases hlt : st.bestQuality < q
            · have hbest : (ascStep p st q (metric q)).bestQuality = q := by
                simp [ascStep, hbp, hlt]
              rw [hbest] at ih1 ih2
              refine ⟨le_trans (le_of_lt hlt) ih1, ?_, ?_, ?_⟩
              · rcases ih2 with h | h
                · exact Or.inr ⟨by rw [h]; exact List.mem_cons_self _ _, by rw [h]; exact hbp⟩
                · exact Or.inr ⟨List.mem_cons_of_mem _ h.1, h.2⟩
              · intro x hx hsat
                rcases List.mem_cons.mp hx with hx | hx
                · subst hx; exact ih1
                · exact ih3 x hx hsat
              · intro x hx
                rcases List.mem_cons.mp hx with hx | hx
                · subst hx; exact hqmin
                · exact le_trans hum (ih4 x hx)
            · have hbest : (ascStep p st q (metric q)).bestQuality = st.bestQuality := by
                simp [ascStep, hbp, hlt]
              rw [hbest] at ih1 ih2
              refine ⟨ih1, ?_, ?_, ?_⟩
              · rcases ih2 with h | h
                · exact Or.inl h
                · exact Or.inr ⟨List.mem_cons_of_mem _ h.1, h.2⟩
              · intro x hx hsat
                rcases List.mem_cons.mp hx with hx | hx
                · subst hx; exact le_trans (not_lt.mp hlt) ih1
                · exact ih3 x hx hsat
              · intro x hx
                rcases List.mem_cons.mp hx with hx | hx
                · subst hx; exact hqmin
                · exact le_trans hum (ih4 x hx)

/-- If some probe of a downward search satisfied the predicate, the returned
best satisfies it and is the least satisfying probe (the seed is the user-unit
maximum, which bounds every probe from above). -/
theorem descLoop_optimal (p : ℚ → Bool) (metric : ℚ → ℚ) (fuel : Nat)
    (qr : QualityRange) (hd : 0 < qr.divisor)
    (hex : ∃ x ∈ (descLoop p metric fuel
        { range := qr, bestQuality := qr.userMaximum, bestScore := f64Min }).2,
      p (metric x) = true) :
    p (metric (descLoop p metric fuel
        { range := qr, bestQuality := qr.userMaximum, bestScore := f64Min }).1) = true ∧
      ∀ x ∈ (descLoop p metric fuel
          { range := qr, bestQuality := qr.userMaximum, bestScore := f64Min }).2,
        p (metric x) = true →
          (descLoop p metric fuel
            { range := qr, bestQuality := qr.userMaximum, bestScore := f64Min }).1 ≤ x := by
  obtain ⟨x0, hx0, hsat0⟩ := hex
  obtain ⟨h1, h2, h3, h4⟩ := descLoop_invariant p metric fuel
    { range := qr, bestQuality := qr.userMaximum, bestScore := f64Min } hd
  refine ⟨?_, h3⟩
  rcases h2 with h | h
  · have hle := h3 x0 hx0 hsat0
    have hge : x0 ≤ (descLoop p metric fuel
        { range := qr, bestQuality := qr.userMaximum, bestScore := f64Min }).1 := by
      rw [h]
      exact h4 x0 hx0
    have hx : x0 = (descLoop p metric fuel
        { range := qr, bestQuality := qr.userMaximum, bestScore := f64Min }).1 :=
      le_antisymm hge hle
    rw [← hx]
    exact hsat0
  · exact h.2

/-- Mirror of `descLoop_optimal` for the upward search: the returned best is
the greatest satisfying probe (the seed is the user-unit minimum, which bounds
every probe from below). -/
theorem ascLoop_optimal (p : ℚ → Bool) (metric : ℚ → ℚ) (fuel : Nat)
    (qr : QualityRange) (hd : 0 < qr.divisor)
    (hex : ∃ x ∈ (ascLoop p metric fuel
        { range := qr, bestQuality := qr.userMinimum, bestScore := f64Min }).2,
      p (metric x) = true) :
    p (metric (ascLoop p metric fuel
        { range := qr, bestQuality := qr.userMinimum, bestScore := f64Min }).1) = true ∧
      ∀ x ∈ (ascLoop p metric fuel
          { range := qr, bestQuality := qr.userMinimum, bestScore := f64Min }).2,
        p (metric x) = true →
          x ≤ (ascLoop p metric fuel
            { range := qr, bestQuality := qr.userMinimum, bestScore := f64Min }).1 := by
  obtain ⟨x0, hx0, hsat0⟩ := hex
  obtain ⟨h1, h2, h3, h4⟩ := ascLoop_invariant p metric fuel
    { range := qr, bestQuality := qr.userMinimum, bestScore := f64Min } hd
  refine ⟨?_, h3⟩
  rcases h2 with h | h
  · have hle := h3 x0 hx0 hsat0
    have hge : (ascLoop p metric fuel
        { range := qr, bestQuality := qr.userMinimum, bestScore := f64Min }).1 ≤ x0 := by
      rw [h]
      exact h4 x0 hx0
    have hx : x0 = (ascLoop p metric fuel
        { range := qr, bestQuality := qr.userMinimum, bestScore := f64Min }).1 :=
      le_antisymm hle hge
    rw [← hx]
    exact hsat0
  · exact h.2

/-- C1 counterexample: with rule=Maximum on QP over the x264 QP range
`[1, 81]` (`Encoder::quality_range` in `src/config.rs`), target `0` and the
constant metric `0`, the search probes `41, 20, 10, 5, 2, 1` and returns
`best_quality = 1`; the probe `41` satisfied the predicate
(`metric ≤ target`) yet `41 > 1`, so a probed quality strictly greater than
the returned best did satisfy the predicate, contradicting the claim as
stated. -/
theorem encode_scene_search_counterexample :
    ∃ x ∈ (encodeSceneSearch .Maximum .QP 0 (fun _ => 0)
        (QualityRange.new 1 81 1 false)).2,
      (fun _ => (0 : ℚ)) x ≤ 0 ∧
        (encodeSceneSearch .Maximum .QP 0 (fun _ => 0)
          (QualityRange.new 1 81 1 false)).1 < x := by
  have hrun : encodeSceneSearch .Maximum .QP 0 (fun _ => 0)
      (QualityRange.new 1 81 1 false) = (1, [41, 20, 10, 5, 2, 1]) := by
    norm_num [encodeSceneSearch, searchLoopAux, searchStep, seedBestQuality,
      QualityRange.new, QualityRange.width, QualityRange.current,
      QualityRange.midpoint, QualityRange.lower, QualityRange.higher,
      QualityRange.userMaximum, f64Min, Int.tdiv]
  rw [hrun]
  refine ⟨41, by norm_num, le_refl 0, by norm_num⟩

/-- C1 (amended): when the bisection loop of `encode_scene` terminates and at
least one probed quality satisfied the predicate, the returned `best_quality`
itself satisfies the predicate and is the *extreme* satisfying probe in the
direction the rule seeks: for rule=Maximum on CRF/QP no probed quality `q`
with `q < q*` satisfied the predicate (`q*` is the least satisfying probe);
mirror-symmetrically, for rule=Minimum on CRF/QP and rule=Maximum on Bitrate
no satisfying probe exceeds `q*`, and for rule=Minimum on Bitrate no
satisfying probe is below `q*`. -/
theorem encode_scene_search_optimal (mode : Mode) (hm : mode = .CRF ∨ mode = .QP)
    (target : ℚ) (metric : ℚ → ℚ) (qr : QualityRange) (hd : 0 < qr.divisor) :
    ((∃ x ∈ (encodeSceneSearch .Maximum mode target metric qr).2,
        metric x ≤ target) →
      metric (encodeSceneSearch .Maximum mode target metric qr).1 ≤ target ∧
        ∀ x ∈ (encodeSceneSearch .Maximum mode target metric qr).2,
          metric x ≤ target →
            (encodeSceneSearch .Maximum mode target metric qr).1 ≤ x) ∧
      ((∃ x ∈ (encodeSceneSearch .Minimum mode target metric qr).2,
          target ≤ metric x) →
        target ≤ metric (encodeSceneSearch .Minimum mode target metric qr).1 ∧
          ∀ x ∈ (encodeSceneSearch .Minimum mode target metric qr).2,
            target ≤ metric x →
              x ≤ (encodeSceneSearch .Minimum mode target metric qr).1) ∧
      ((∃ x ∈ (encodeSceneSearch .Maximum .Bitrate target metric qr).2,
          metric x ≤ target) →
        metric (encodeSceneSearch .Maximum .Bitrate target metric qr).1 ≤ target ∧
          ∀ x ∈ (encodeSceneSearch .Maximum .Bitrate target metric qr).2,
            metric x ≤ target →
              x ≤ (encodeSceneSearch .Maximum .Bitrate target metric qr).1) ∧
      ((∃ x ∈ (encodeSceneSearch .Minimum .Bitrate target metric qr).2,
          target ≤ metric x) →
        target ≤ metric (encodeSceneSearch .Minimum .Bitrate target metric qr).1 ∧
          ∀ x ∈ (encodeSceneSearch .Minimum .Bitrate target metric qr).2,
            target ≤ metric x →
              (encodeSceneSearch .Minimum .Bitrate target metric qr).1 ≤ x) := by
  have hrw1 : encodeSceneSearch .Maximum mode target metric qr =
      descLoop (fun w => decide (w ≤ target)) metric (qr.width + 1)
        { range := qr, bestQuality := qr.userMaximum, bestScore := f64Min } := by
    unfold encodeSceneSearch
    have hseed : seedBestQuality mode .Maximum qr = qr.userMaximum := by
      rcases hm with h | h <;> subst h <;> simp [seedBestQuality]
    rw [hseed, searchLoopAux_eq_descLoop metric
      (fun st q v => searchStep_eq_descStep_max mode hm target st q v)]
  have hrw2 : encodeSceneSearch .Minimum mode target metric qr =
      ascLoop (fun w => decide (target ≤ w)) metric (qr.width + 1)
        { range := qr, bestQuality := qr.userMinimum, bestScore := f64Min } := by
    unfold encodeSceneSearch
    have hseed : seedBestQuality mode .Minimum qr = qr.userMinimum := by
      rcases hm with h | h <;> subst h <;> simp [seedBestQuality]
    rw [hseed, searchLoopAux_eq_ascLoop metric
      (fun st q v => searchStep_eq_ascStep_min mode hm target st q v)]
  have hrw3 : encodeSceneSearch .Maximum .Bitrate target metric qr =
      ascLoop (fun w => decide (w ≤ target)) metric (qr.width + 1)
        { range := qr, bestQuality := qr.userMinimum, bestScore := f64Min } := by
    unfold encodeSceneSearch
    have hseed : seedBestQuality .Bitrate .Maximum qr = qr.userMinimum := by
      simp [seedBestQuality]
    rw [hseed, searchLoopAux_eq_ascLoop metric
      (fun st q v => searchStep_eq_ascStep_maxBitrate target st q v)]
  have hrw4 : encodeSceneSearch .Minimum .Bitrate target metric qr =
      descLoop (fun w => decide (target ≤ w)) metric (qr.width + 1)
        { range := qr, bestQuality := qr.userMaximum, bestScore := f64Min } := by
    unfold encodeSceneSearch
    have hseed : seedBestQuality .Bitrate .Minimum qr = qr.userMaximum := by
      simp [seedBestQuality]
    rw [hseed, searchLoopAux_eq_descLoop metric
      (fun st q v => searchStep_eq_descStep_minBitrate target st q v)]
  refine ⟨?_, ?_, ?_, ?_⟩
  · rw [hrw1]
    intro hex
    have hop := descLoop_optimal (fun w => decide (w ≤ target)) metric
      (qr.width + 1) qr hd (by simpa using hex)
    simpa using hop
  · rw [hrw2]
    intro hex
    have hop := ascLoop_optimal (fun w => decide (target ≤ w)) metric
      (qr.width + 1) qr hd (by simpa using hex)
    simpa using hop
  · rw [hrw3]
    intro hex
    have hop := ascLoop_optimal (fun w => decide (w ≤ target)) metric
      (qr.width + 1) qr hd (by simpa using hex)
    simpa using hop
  · rw [hrw4]
    intro hex
    have hop := descLoop_optimal (fun w => decide (target ≤ w)) metric
      (qr.width + 1) qr hd (by simpa using hex)
    simpa using hop

/-- Witness for the amended C1 theorem, instantiated at mode QP, target `0`,
the constant metric `0`, and the x264 QP range `[1, 81]`. -/
theorem encode_scene_search_optimal_witness :
    (Mode.QP = Mode.CRF ∨ Mode.QP = Mode.QP) ∧
      0 < (QualityRange.new 1 81 1 false).divisor ∧
      (((∃ x ∈ (encodeSceneSearch .Maximum .QP 0 (fun _ => 0)
            (QualityRange.new 1 81 1 false)).2, (fun _ => (0 : ℚ)) x ≤ 0) →
          (fun _ => (0 : ℚ)) (encodeSceneSearch .Maximum .QP 0 (fun _ => 0)
            (QualityRange.new 1 81 1 false)).1 ≤ 0 ∧
            ∀ x ∈ (encodeSceneSearch .Maximum .QP 0 (fun _ => 0)
                (QualityRange.new 1 81 1 false)).2,
              (fun _ => (0 : ℚ)) x ≤ 0 →
                (encodeSceneSearch .Maximum .QP 0 (fun _ => 0)
                  (QualityRange.new 1 81 1 false)).1 ≤ x) ∧
        ((∃ x ∈ (encodeSceneSearch .Minimum .QP 0 (fun _ => 0)
            (QualityRange.new 1 81 1 false)).2, 0 ≤ (fun _ => (0 : ℚ)) x) →
          0 ≤ (fun _ => (0 : ℚ)) (encodeSceneSearch .Minimum .QP 0 (fun _ => 0)
            (QualityRange.new 1 81 1 false)).1 ∧
            ∀ x ∈ (encodeSceneSearch .Minimum .QP 0 (fun _ => 0)
                (QualityRange.new 1 81 1 false)).2,
              0 ≤ (fun _ => (0 : ℚ)) x →
                x ≤ (encodeSceneSearch .Minimum .QP 0 (fun _ => 0)
                  (QualityRange.new 1 81 1 false)).1) ∧
        ((∃ x ∈ (encodeSceneSearch .Maximum .Bitrate 0 (fun _ => 0)
            (QualityRange.new 1 81 1 false)).2, (fun _ => (0 : ℚ)) x ≤ 0) →
          (fun _ => (0 : ℚ)) (encodeSceneSearch .Maximum .Bitrate 0 (fun _ => 0)
            (QualityRange.new 1 81 1 false)).1 ≤ 0 ∧
            ∀ x ∈ (encodeSceneSearch .Maximum .Bitrate 0 (fun _ => 0)
                (QualityRange.new 1 81 1 false)).2,
              (fun _ => (0 : ℚ)) x ≤ 0 →
                x ≤ (encodeSceneSearch .Maximum .Bitrate 0 (fun _ => 0)
                  (QualityRange.new 1 81 1 false)).1) ∧
        ((∃ x ∈ (encodeSceneSearch .Minimum .Bitrate 0 (fun _ => 0)
            (QualityRange.new 1 81 1 false)).2, 0 ≤ (fun _ => (0 : ℚ)) x) →
          0 ≤ (fun _ => (0 : ℚ)) (encodeSceneSearch .Minimum .Bitrate 0 (fun _ => 0)
            (QualityRange.new 1 81 1 false)).1 ∧
            ∀ x ∈ (encodeSceneSearch .Minimum .Bitrate 0 (fun _ => 0)
                (QualityRange.new 1 81 1 false)).2,
              0 ≤ (fun _ => (0 : ℚ)) x →
                (encodeSceneSearch .Minimum .Bitrate 0 (fun _ => 0)
                  (QualityRange.new 1 81 1 false)).1 ≤ x)) :=
  ⟨Or.inr rfl, by norm_num [QualityRange.new],
    encode_scene_search_optimal .QP (Or.inr rfl) 0 (fun _ => 0)
      (QualityRange.new 1 81 1 false) (by norm_num [QualityRange.new])⟩

/-! ## C4: the scene list is an ordered partition of the frame range -/

/-- `Scene` from `src/scenes.rs` lines 15-20. -/
structure Scene where
  index : Nat
  start_frame : Nat
  end_frame : Nat
  deriving Repr, DecidableEq

/-- `Scene::length` (`src/scenes.rs` lines 28-31). -/
def Scene.length (s : Scene) : Nat :=
  s.end_frame - s.start_frame + 1

/-- The scene-construction pipeline of `scenes::get` applied from enumeration
offset `n` (the `enumerate` counter): pair each entry of the list with its
successor and form a scene per pair. -/
def scenesAux (n : Nat) (l : List Nat) : List Scene :=
  ((l.zip l.tail).enumFrom n).map fun p =>
    { index := p.1, start_frame := p.2.1, end_frame := p.2.2 - 1 }

/-- Scene construction in `scenes::get` (`src/scenes.rs` lines 108-120):
append the sentinel `frame_count` to the detector's scene-change list, zip the
list with itself shifted by one, enumerate from 0, and map each
`(index, (start, next))` to `Scene { index, start, next - 1 }` (Rust `usize`
subtraction is `Nat` subtraction here). -/
def mkScenes (sceneChanges : List Nat) (frameCount : Nat) : List Scene :=
  scenesAux 0 (sceneChanges ++ [frameCount])

theorem scenesAux_nil (n : Nat) : scenesAux n [] = [] := rfl

theorem scenesAux_single (n a : Nat) : scenesAux n [a] = [] := rfl

theorem scenesAux_cons2 (n a b : Nat) (r : List Nat) :
    scenesAux n (a :: b :: r) =
      { index := n, start_frame := a, end_frame := b - 1 } :: scenesAux (n + 1) (b :: r) := rfl

/-- Consecutive scenes built from a strictly increasing list tile exactly:
each scene starts one frame after its predecessor ends, and indices advance by
one. -/
theorem scenesAux_chain : ∀ (n : Nat) (l : List Nat), List.Chain' (· < ·) l →
    List.Chain' (fun s t => t.start_frame = s.end_frame + 1 ∧ t.index = s.index + 1)
      (scenesAux n l)
  | _, [], _ => List.chain'_nil
  | _, [_], _ => by rw [scenesAux_single]; exact List.chain'_nil
  | n, a :: b :: r, h => by
      rw [scenesAux_cons2]
      have hab : a < b := (List.chain'_cons.mp h).1
      have htail := scenesAux_chain (n + 1) (b :: r) (List.chain'_cons.mp h).2
      cases r with
      | nil =>
          rw [scenesAux_single]
          exact List.chain'_singleton _
      | cons c r' =>
          have hbc : b < c := (List.chain'_cons.mp (List.chain'_cons.mp h).2).1
          rw [scenesAux_cons2] at htail ⊢
          refine List.chain'_cons.mpr ⟨⟨?_, rfl⟩, htail⟩
          simp only
          omega

/-- The last scene built from `a :: b :: r` ends one frame before the last
entry of the list. -/
theorem scenesAux_getLast_end : ∀ (n a b : Nat) (r : List Nat),
    ((scenesAux n (a :: b :: r)).getLast?).map Scene.end_frame =
      ((b :: r).getLast?).map (fun x => x - 1)
  | _, _, _, [] => rfl
  | n, a, b, c :: r' => by
      rw [scenesAux_cons2, scenesAux_cons2]
      rw [List.getLast?_cons_cons]
      rw [← scenesAux_cons2]
      rw [scenesAux_getLast_end (n + 1) b c r']
      rw [List.getLast?_cons_cons]

/-- C4: the scene list built by `scenes::get` from a detector result is an
ordered partition of `[0, frame_count)`: consecutive scenes satisfy
`s_{i+1}.start_frame = s_i.end_frame + 1` with indices increasing by one, the
first scene has index 0 and starts at frame 0, and the last scene ends at
`frame_count - 1` — provided the detector's list is strictly increasing,
starts with 0, and all its entries are below `frame_count`. -/
theorem scenes_partition (sceneChanges : List Nat) (frameCount : Nat)
    (hchain : List.Chain' (· < ·) sceneChanges)
    (hhead : sceneChanges.head? = some 0)
    (hlt : ∀ x ∈ sceneChanges, x < frameCount) :
    List.Chain' (fun s t => t.start_frame = s.end_frame + 1 ∧ t.index = s.index + 1)
      (mkScenes sceneChanges frameCount) ∧
      (∀ s, (mkScenes sceneChanges frameCount).head? = some s →
        s.start_frame = 0 ∧ s.index = 0) ∧
      ((mkScenes sceneChanges frameCount).getLast?).map Scene.end_frame =
        some (frameCount - 1) := by
  have hchain' : List.Chain' (· < ·) (sceneChanges ++ [frameCount]) := by
    apply List.Chain'.append hchain (List.chain'_singleton _)
    intro x hx y hy
    simp only [List.head?_cons, Option.mem_def, Option.some.injEq] at hy
    subst hy
    exact hlt x (List.mem_of_mem_getLast? hx)
  obtain ⟨sc', hsc⟩ : ∃ sc', sceneChanges = 0 :: sc' := by
    cases sceneChanges with
    | nil => simp at hhead
    | cons a t =>
        simp only [List.head?_cons, Option.some.injEq] at hhead
        exact ⟨t, by rw [hhead]⟩
  subst hsc
  refine ⟨scenesAux_chain 0 _ hchain', ?_, ?_⟩
  · intro s hs
    cases sc' with
    | nil =>
        rw [mkScenes] at hs
        simp only [List.nil_append, List.cons_append] at hs
        rw [scenesAux_cons2] at hs
        simp only [List.head?_cons, Option.some.injEq] at hs
        subst hs
        exact ⟨rfl, rfl⟩
    | cons b r =>
        rw [mkScenes] at hs
        simp only [List.cons_append] at hs
        rw [scenesAux_cons2] at hs
        simp only [List.head?_cons, Option.some.injEq] at hs
        subst hs
        exact ⟨rfl, rfl⟩
  · rw [mkScenes]
    cases sc' with
    | nil =>
        simp only [List.nil_append, List.cons_append]
        rw [scenesAux_getLast_end]
        rfl
    | cons b r =>
        simp only [List.cons_append]
        rw [scenesAux_getLast_end, ← List.cons_append, List.getLast?_concat]
        rfl

/-- Witness for C4 at the detector output `[0, 10, 50]` with 120 frames. -/
theorem scenes_partition_witness :
    List.Chain' (· < ·) [0, 10, 50] ∧
      ([0, 10, 50] : List Nat).head? = some 0 ∧
      (∀ x ∈ ([0, 10, 50] : List Nat), x < 120) ∧
      (List.Chain'
          (fun s t => t.start_frame = s.end_frame + 1 ∧ t.index = s.index + 1)
          (mkScenes [0, 10, 50] 120) ∧
        (∀ s, (mkScenes [0, 10, 50] 120).head? = some s →
          s.start_frame = 0 ∧ s.index = 0) ∧
        ((mkScenes [0, 10, 50] 120).getLast?).map Scene.end_frame = some 119) :=
  ⟨by norm_num [List.chain'_cons, List.chain'_singleton], by decide, by decide,
    scenes_partition [0, 10, 50] 120
      (by norm_num [List.chain'_cons, List.chain'_singleton]) (by decide) (by decide)⟩

/-! ## C5: the reduction of the metric sample vector ignores `use_mean` -/

/-- Modelled from the spec: the percentile estimate computed by the statistics
dependency's `Data::new(values).quantile(tau)` (the R-8 / median-unbiased
estimator): with `h = (n + 1/3)·tau + 1/3`, return the minimum when
`⌊h⌋ ≤ 0`, the maximum when `⌊h⌋ ≥ n`, and otherwise interpolate between the
order statistics `⌊h⌋` and `⌊h⌋ + 1`; invalid `tau` or empty data give `none`
(`NaN` in the original). -/
def statrsQuantile (data : List ℚ) (tau : ℚ) : Option ℚ :=
  if tau < 0 ∨ 1 < tau ∨ data = [] then none
  else
    let sorted := data.insertionSort (· ≤ ·)
    let h : ℚ := ((data.length : ℚ) + 1 / 3) * tau + 1 / 3
    let hf : Int := ⌊h⌋
    if hf ≤ 0 ∨ tau = 0 then sorted.head?
    else if (data.length : Int) ≤ hf ∨ tau = 1 then sorted.getLast?
    else
      match sorted.get? (hf.toNat - 1), sorted.get? hf.toNat with
      | some a, some b => some (a + (h - (hf : ℚ)) * (b - a))
      | _, _ => none

set_option linter.unusedVariables false in
/-- The reduction performed by the search loop (`src/encoder.rs` line 468):
`Data::new(metric_values).quantile(self.config.percentile)`.  The
`use_mean` flag of the configuration is in scope but never consulted. -/
def reduceMetricValue (use_mean : Bool) (percentile : ℚ)
    (values : List ℚ) : Option ℚ :=
  statrsQuantile values percentile

/-- Modelled from the spec: "Reduce the sample vector to a scalar `v` via the
chosen percentile (e.g. 0.05) or the mean if use_mean." -/
def specReduceMetricValue (use_mean : Bool) (percentile : ℚ)
    (values : List ℚ) : Option ℚ :=
  if use_mean then
    if values = [] then none else some (values.sum / (values.length : ℚ))
  else statrsQuantile values percentile

/-- C5 evaluation at the failing input: with `use_mean = true`,
`percentile = 0.05` and samples `[0, 10]`, the code computes the 5th
percentile `0` — identically for both values of the flag — while the spec
requires the mean `5`. -/
theorem reduce_metric_ignores_use_mean :
    (∀ (b : Bool) (p : ℚ) (v : List ℚ),
        reduceMetricValue b p v = reduceMetricValue (!b) p v) ∧
      reduceMetricValue true (1 / 20) [0, 10] = some 0 ∧
      specReduceMetricValue true (1 / 20) [0, 10] = some 5 ∧
      reduceMetricValue true (1 / 20) [0, 10] ≠
        specReduceMetricValue true (1 / 20) [0, 10] := by
  refine ⟨fun b p v => rfl, ?_, ?_, ?_⟩
  · have hfl : ⌊(((([(0 : ℚ), 10]).length : ℚ) + 1 / 3) * (1 / 20) + 1 / 3)⌋ = 0 := by
      norm_num
    norm_num [reduceMetricValue, statrsQuantile, List.insertionSort,
      List.orderedInsert] at hfl ⊢
    exact fun hcon => absurd hcon (List.cons_ne_nil _ _)
  · norm_num [specReduceMetricValue]
    exact fun hcon => absurd hcon (List.cons_ne_nil _ _)
  · intro h
    have h1 : reduceMetricValue true (1 / 20) [0, 10] = some 0 := by
      have hfl : ⌊(((([(0 : ℚ), 10]).length : ℚ) + 1 / 3) * (1 / 20) + 1 / 3)⌋ = 0 := by
        norm_num
      norm_num [reduceMetricValue, statrsQuantile, List.insertionSort,
        List.orderedInsert] at hfl ⊢
      exact fun hcon => absurd hcon (List.cons_ne_nil _ _)
    have h2 : specReduceMetricValue true (1 / 20) [0, 10] = some 5 := by
      norm_num [specReduceMetricValue]
      exact fun hcon => absurd hcon (List.cons_ne_nil _ _)
    rw [h1, h2] at h
    norm_num at h

/-! ## C6: which cache writes are atomic (write-temporary-then-rename) -/

/-- A file-system operation performed by a persistence routine. -/
inductive FsOp where
  | create (path : String)
  | rename (src dst : String)
  deriving Repr, DecidableEq

/-- Rust `Path::with_extension(ext)` restricted to the paths used here: drop
the final `.segment` of the name (when a dot is present) and append `.`
followed by `ext`. -/
def withExtension (p ext : String) : String :=
  let cs := p.toList
  if ('.' : Char) ∈ cs then
    String.mk ((((cs.reverse.dropWhile (fun c => c ≠ '.')).drop 1).reverse) ++
      ('.' :: ext.toList))
  else String.mk (cs ++ ('.' :: ext.toList))

/-- `ClipMetrics::update_cache` (`src/metrics.rs` lines 325-352): create the
temporary file `self.json_path.with_extension(".tmp.json")`, serialize into
it, then rename it onto `json_path`. -/
def updateCacheOps (jsonPath : String) : List FsOp :=
  [FsOp.create (withExtension jsonPath ".tmp.json"),
    FsOp.rename (withExtension jsonPath ".tmp.json") jsonPath]

/-- The scene-catalog cache write in `scenes::get` (`src/scenes.rs` lines
122-127): `serde_json::to_writer_pretty(&File::create(&json_path)?, &scenes)`
— a single direct create of the final path, with no temporary and no rename. -/
def scenesCacheOps (jsonPath : String) : List FsOp :=
  [FsOp.create jsonPath]

/-- The metadata cache write in `get_metadata` (`src/ffmpeg.rs` lines
102-107): likewise a single direct create of the final path. -/
def metadataCacheOps (jsonPath : String) : List FsOp :=
  [FsOp.create jsonPath]

/-- The spec's atomic-publish discipline for a durable write: first create a
temporary path distinct from the final path, then rename it onto the final
path. -/
def isAtomicWrite (finalPath : String) : List FsOp → Bool
  | [FsOp.create t, FsOp.rename s d] => s == t && d == finalPath && t != finalPath
  | _ => false

/-- C6 counterexample: the two cache files the claim names — the scene
catalog `scenes.json` and the metadata cache `metadata.json` — are written by
a single direct `File::create` of the final path, not by the
write-temporary-then-rename discipline. -/
theorem scenes_metadata_cache_not_atomic :
    isAtomicWrite "out/config/scenes.json"
        (scenesCacheOps "out/config/scenes.json") = false ∧
      isAtomicWrite "out/config/metadata.json"
        (metadataCacheOps "out/config/metadata.json") = false := by
  exact ⟨rfl, rfl⟩

/-- C6 (amended): the `ClipMetrics` sidecar cache written by `update_cache`
does follow the write-temporary-then-rename discipline, but the scene catalog
`scenes.json` and the metadata cache `metadata.json` are serialized directly
into their final paths with no temporary file. -/
theorem cache_write_atomicity (jsonPath p1 p2 : String)
    (h : withExtension jsonPath ".tmp.json" ≠ jsonPath) :
    isAtomicWrite jsonPath (updateCacheOps jsonPath) = true ∧
      isAtomicWrite p1 (scenesCacheOps p1) = false ∧
      isAtomicWrite p2 (metadataCacheOps p2) = false := by
  refine ⟨?_, rfl, rfl⟩
  simp [isAtomicWrite, updateCacheOps, h]

/-- Witness for the amended C6 theorem at a concrete metrics sidecar path. -/
theorem cache_write_atomicity_witness :
    withExtension "qp-023.metrics.json" ".tmp.json" ≠ "qp-023.metrics.json" ∧
      (isAtomicWrite "qp-023.metrics.json"
          (updateCacheOps "qp-023.metrics.json") = true ∧
        isAtomicWrite "a" (scenesCacheOps "a") = false ∧
        isAtomicWrite "b" (metadataCacheOps "b") = false) :=
  ⟨by decide, cache_write_atomicity "qp-023.metrics.json" "a" "b" (by decide)⟩

/-! ## C7: the `ClipMetrics` JSON sidecar round-trips its persisted fields -/

/-- A JSON value as produced by the serializer for the persisted fields of
`ClipMetrics`: `null` (for `None`), numbers, arrays, and objects. -/
inductive Json where
  | null
  | num (value : ℚ)
  | arr (items : List Json)
  | obj (fields : List (String × Json))
  deriving Repr

/-- The persisted fields of `ClipMetrics` (`src/metrics.rs` lines 24-47), in
declaration order; the four `#[serde(skip)]` path fields are not serialized.
`f64` values are the exact rationals serde's shortest-round-trip printing
preserves; the packet sizes are `usize`. -/
structure ClipMetricsCache where
  duration : Option ℚ
  sizes : Option (List Nat)
  vmaf : Option (List ℚ)
  psnr : Option (List ℚ)
  ssim : Option (List ℚ)
  ssimulacra2 : Option (List ℚ)
  deriving Repr, DecidableEq

/-- serde encoding for `Option`: `None` becomes `null`, `Some` the value. -/
def encOpt (f : α → Json) : Option α → Json
  | none => Json.null
  | some a => f a

def encRatList (xs : List ℚ) : Json :=
  Json.arr (xs.map Json.num)

def encNatList (xs : List Nat) : Json :=
  Json.arr (xs.map fun (n : Nat) => Json.num (n : ℚ))

/-- Serialization of the persisted fields, as serde derives it: an object
with one entry per non-skipped field, in declaration order. -/
def encodeClipMetrics (m : ClipMetricsCache) : Json :=
  Json.obj
    [("duration", encOpt Json.num m.duration),
      ("sizes", encOpt encNatList m.sizes),
      ("vmaf", encOpt encRatList m.vmaf),
      ("psnr", encOpt encRatList m.psnr),
      ("ssim", encOpt encRatList m.ssim),
      ("ssimulacra2", encOpt encRatList m.ssimulacra2)]

def decNum : Json → Option ℚ
  | Json.num q => some q
  | _ => none

def decNat : Json → Option Nat
  | Json.num q => if q.den = 1 ∧ 0 ≤ q.num then some q.num.toNat else none
  | _ => none

def decListAux (f : Json → Option α) : List Json → Option (List α)
  | [] => some []
  | j :: js => do
      let a ← f j
      let t ← decListAux f js
      some (a :: t)

def decList (f : Json → Option α) : Json → Option (List α)
  | Json.arr items => decListAux f items
  | _ => none

/-- serde decoding for `Option`: `null` is `None`, anything else must decode
as the inner value. -/
def decOpt (f : Json → Option α) : Json → Option (Option α)
  | Json.null => some none
  | j => (f j).map some

def getField (fields : List (String × Json)) (name : String) : Option Json :=
  fields.lookup name

/-- Deserialization of the persisted fields, mirroring what
`serde_json::from_reader` does in `ClipMetrics::new` (`src/metrics.rs` lines
76-88): look up each field of the object and decode it, failing if any is
malformed. -/
def decodeClipMetrics : Json → Option ClipMetricsCache
  | Json.obj fields => do
      let duration ← decOpt decNum (← getField fields "duration")
      let sizes ← decOpt (decList decNat) (← getField fields "sizes")
      let vmaf ← decOpt (decList decNum) (← getField fields "vmaf")
      let psnr ← decOpt (decList decNum) (← getField fields "psnr")
      let ssim ← decOpt (decList decNum) (← getField fields "ssim")
      let ssimulacra2 ← decOpt (decList decNum) (← getField fields "ssimulacra2")
      some { duration := duration, sizes := sizes, vmaf := vmaf,
             psnr := psnr, ssim := ssim, ssimulacra2 := ssimulacra2 }
  | _ => none

@[simp]
theorem decNat_natCast (n : Nat) : decNat (Json.num (n : ℚ)) = some n := by
  simp [decNat, Rat.den_natCast, Rat.num_natCast]

theorem decListAux_natCast (xs : List Nat) :
    decListAux decNat (xs.map fun (n : Nat) => Json.num (n : ℚ)) = some xs := by
  induction xs with
  | nil => rfl
  | cons a t ih =>
      rw [List.map_cons, decListAux, decNat_natCast, ih]
      rfl

theorem decListAux_ratCast (xs : List ℚ) :
    decListAux decNum (xs.map Json.num) = some xs := by
  induction xs with
  | nil => rfl
  | cons a t ih =>
      rw [List.map_cons, decListAux, ih]
      rfl

theorem decList_encNatList (xs : List Nat) :
    decList decNat (encNatList xs) = some xs := by
  rw [encNatList, decList, decListAux_natCast]

theorem decList_encRatList (xs : List ℚ) :
    decList decNum (encRatList xs) = some xs := by
  rw [encRatList, decList, decListAux_ratCast]

@[simp]
theorem decOpt_encOpt_num (d : Option ℚ) :
    decOpt decNum (encOpt Json.num d) = some d := by
  cases d <;> rfl

@[simp]
theorem decOpt_encOpt_natList (d : Option (List Nat)) :
    decOpt (decList decNat) (encOpt encNatList d) = some d := by
  cases d with
  | none => rfl
  | some xs =>
      have h1 : decOpt (decList decNat) (encOpt encNatList (some xs)) =
          (decList decNat (encNatList xs)).map some := rfl
      rw [h1, decList_encNatList]
      rfl

@[simp]
theorem decOpt_encOpt_ratList (d : Option (List ℚ)) :
    decOpt (decList decNum) (encOpt encRatList d) = some d := by
  cases d with
  | none => rfl
  | some xs =>
      have h1 : decOpt (decList decNum) (encOpt encRatList (some xs)) =
          (decList decNum (encRatList xs)).map some := rfl
      rw [h1, decList_encRatList]
      rfl

/-- C7: deserializing the sidecar JSON written by `update_cache` recovers
exactly the persisted `duration`, `sizes`, `psnr`, `ssim`, `vmaf` and
`ssimulacra2` field values — the serialize-then-deserialize round trip is the
identity on the persisted fields, so `ClipMetrics::new` on a previously
written sidecar yields the same values as the in-memory record that wrote
it. -/
theorem clip_metrics_cache_roundtrip (m : ClipMetricsCache) :
    decodeClipMetrics (encodeClipMetrics m) = some m := by
  simp [decodeClipMetrics, encodeClipMetrics, getField, List.lookup]

/-! ## C8: worker pool size when `config.workers` is 0 -/

/-- The number of encode worker threads spawned by `Encoder::encode`
(`src/encoder.rs` lines 146-154): one scoped thread per index in
`0..config.workers`. -/
def workerThreadsSpawned (workers : Nat) : Nat := workers

/-- Modelled from the spec: the global metric thread pool built in `run`
(`src/lib.rs` lines 38-41) via `ThreadPoolBuilder::new().num_threads(workers)`,
whose documented behavior is that 0 selects the library default. -/
def rayonPoolThreads (workers defaultThreads : Nat) : Nat :=
  if workers = 0 then defaultThreads else workers

/-- Sequential model of the worker pool draining the scene queue
(`src/encoder.rs` line 155: `while let Some(scene) = scene_queue.pop()`):
each spawned worker in turn pops scenes until the queue is empty, so the
first worker processes the remaining queue and later workers find it empty;
with zero spawned workers nothing is ever popped. -/
def scenesProcessed : Nat → List Scene → List Scene
  | 0, _ => []
  | n + 1, queue => queue ++ scenesProcessed n []

/-- C8 evaluation at the failing input: with `config.workers = 0` (the CLI
default), the rayon pool does fall back to the library default, but
`Encoder::encode` spawns `0..0 = 0` worker threads, so a queued scene is
never popped and never encoded; with at least one worker the whole queue is
processed. -/
theorem workers_zero_encodes_nothing :
    workerThreadsSpawned 0 = 0 ∧
      scenesProcessed (workerThreadsSpawned 0)
        [{ index := 0, start_frame := 0, end_frame := 23 }] = [] ∧
      rayonPoolThreads 0 8 = 8 ∧
      (∀ queue : List Scene, scenesProcessed 1 queue = queue) := by
  refine ⟨rfl, rfl, rfl, fun queue => ?_⟩
  simp [scenesProcessed]

/-! ## C9: the aggregator loop's exit condition and the quality queue -/

/-- The aggregator-relevant state during `Encoder::encode`: how many workers
are still running, how many items sit in the two result queues, and how many
chosen-quality samples have been collected into the statistics. -/
structure AggregatorState where
  workersAlive : Nat
  resultQueue : Nat
  qualityQueue : Nat
  collectedQualities : Nat
  deriving Repr, DecidableEq

/-- The aggregator's continue condition from `src/encoder.rs` lines 200-204:
`threads.iter().any(|t| !t.is_finished()) || !result_queue.is_empty()`.
Only the `ClipMetrics` result queue is consulted, not the quality queue. -/
def aggregatorContinues (s : AggregatorState) : Bool :=
  s.workersAlive != 0 || s.resultQueue != 0

/-- The loop condition the claim describes: drain while any worker is alive
or while either queue is non-empty. -/
def specAggregatorContinues (s : AggregatorState) : Bool :=
  s.workersAlive != 0 || s.resultQueue != 0 || s.qualityQueue != 0

/-- Events interleaving a worker with the aggregator's loop body. -/
inductive AggEvent where
  | pushResult      -- worker pushes a ClipMetrics (`src/encoder.rs` line 175)
  | pushQuality     -- worker pushes the chosen quality (line 179)
  | workerDone      -- worker's scene loop ends (lines 186-192)
  | drainResults    -- aggregator inner drain of the result queue (lines 205-228)
  | drainQualities  -- aggregator inner drain of the quality queue (lines 230-232)
  deriving Repr, DecidableEq

def aggStep (s : AggregatorState) : AggEvent → AggregatorState
  | .pushResult => { s with resultQueue := s.resultQueue + 1 }
  | .pushQuality => { s with qualityQueue := s.qualityQueue + 1 }
  | .workerDone => { s with workersAlive := s.workersAlive - 1 }
  | .drainResults => { s with resultQueue := 0 }
  | .drainQualities =>
      { s with
          qualityQueue := 0
          collectedQualities := s.collectedQualities + s.qualityQueue }

def aggRun (s : AggregatorState) (events : List AggEvent) : AggregatorState :=
  events.foldl aggStep s

/-- C9 evaluation at the failing interleaving: one worker encodes one scene;
it pushes the ClipMetrics, the aggregator (whose condition holds, the worker
being alive) drains both queues, then the worker pushes its chosen quality
and finishes.  Now every worker is finished and the result queue is empty, so
the source's loop condition is false and the aggregator exits with the
quality still queued and zero qualities collected — while the condition the
claim describes (either queue non-empty) would have continued. -/
theorem aggregator_can_drop_quality :
    aggregatorContinues
        (aggRun { workersAlive := 1, resultQueue := 0, qualityQueue := 0, collectedQualities := 0 }
          [.pushResult]) = true ∧
      aggRun { workersAlive := 1, resultQueue := 0, qualityQueue := 0, collectedQualities := 0 }
          [.pushResult, .drainResults, .drainQualities, .pushQuality, .workerDone] =
        { workersAlive := 0, resultQueue := 0, qualityQueue := 1, collectedQualities := 0 } ∧
      aggregatorContinues
        { workersAlive := 0, resultQueue := 0, qualityQueue := 1, collectedQualities := 0 } =
        false ∧
      specAggregatorContinues
        { workersAlive := 0, resultQueue := 0, qualityQueue := 1, collectedQualities := 0 } =
        true := by
  refine ⟨rfl, ?_, rfl, rfl⟩
  rfl

/-! ## C10: the metric-thread budget never divides by zero -/

/-- The metric-thread budget computed by a worker inside `encode_scene`
(`src/encoder.rs` lines 428-429):
`self.config.workers / self.active_workers.load(..)` with integer division. -/
def metricThreads (workers activeWorkers : Nat) : Nat :=
  workers / activeWorkers

/-- The active-worker counter: initialized to `config.workers`
(`src/encoder.rs` line 96) and decremented exactly once per worker after that
worker's scene loop ends (line 189), so while `finishedWorkers` workers have
decremented it its value is `workers - finishedWorkers`. -/
def activeWorkersValue (workers finishedWorkers : Nat) : Nat :=
  workers - finishedWorkers

/-- C10: while a worker is inside `encode_scene` it has not yet decremented
the counter, so at most `workers - 1` decrements have happened; given
`config.workers ≥ 1` the loaded counter value is therefore at least 1 and
the integer division never divides by zero (and every worker receives a
budget of at least one thread). -/
theorem metric_threads_divisor_positive (workers finishedWorkers : Nat)
    (hw : 1 ≤ workers) (hf : finishedWorkers ≤ workers - 1) :
    0 < activeWorkersValue workers finishedWorkers ∧
      1 ≤ metricThreads workers (activeWorkersValue workers finishedWorkers) := by
  unfold activeWorkersValue metricThreads
  refine ⟨by omega, ?_⟩
  exact Nat.div_pos (by omega) (by omega)

/-- Witness for C10 with 4 workers of which 3 have finished. -/
theorem metric_threads_divisor_positive_witness :
    1 ≤ 4 ∧ 3 ≤ 4 - 1 ∧
      (0 < activeWorkersValue 4 3 ∧
        1 ≤ metricThreads 4 (activeWorkersValue 4 3)) :=
  ⟨by decide, by decide, metric_threads_divisor_positive 4 3 (by decide) (by decide)⟩
